import Mathlib

/-!
Shallow embedding of `src/dlimp/dataloader.py` (the decode → tag → regroup
pipeline of the dlimp dataloader) together with theorems checking the
natural-language specification against it.

Modelling conventions:
* TensorFlow int64 arithmetic wraps modulo 2^64 (two's complement); this is
  modelled by `wrap64` on `Int`.
* `tf.math.floormod` / `//` on int64 are flooring operations, modelled by
  `Int.fmod` / `Int.fdiv`.
* A decoded trajectory (`Record`) maps field names to either a scalar or a
  tensor with a leading "trajectory length" dimension; everything after the
  leading dimension is abstracted into the row type `α`.
* Errors (Python `assert` and `tf.debugging.assert_equal`) are modelled by an
  `Except` result.  The Python `assert "_i" not in x` statements run eagerly
  at trace time, before the `tf.assert_equal` ops in `asserts` can run, so
  the reserved-field check is performed first; the graph-level asserts are
  then checked in the order they occur in the `asserts` list.
-/

namespace Dlimp

/-- `_TRAJ_IDX_ENCODING_BITS` from dataloader.py line 8: 51 bits for the
trajectory index, leaving 12 usable bits of a signed int64 for the length. -/
def TRAJ_IDX_ENCODING_BITS : Nat := 51

/-- Two's-complement wrap-around of signed 64-bit integer arithmetic. -/
def wrap64 (n : Int) : Int := (n + 2 ^ 63) % 2 ^ 64 - 2 ^ 63

/-- The composite key of `_add_traj_metadata` line 167:
`k = tf.cast(traj_len, tf.int64) * (2**_TRAJ_IDX_ENCODING_BITS) + i`,
with every int64 operation wrapping. -/
def makeKey (trajLen i : Nat) : Int :=
  wrap64 (wrap64 ((trajLen : Int) * 2 ^ TRAJ_IDX_ENCODING_BITS) + (i : Int))

/-- A field value of a decoded trajectory: either a scalar (rank 0) or a
tensor whose leading dimension is the list length; the remaining dimensions
are abstracted into `α`. -/
inductive Field (α : Type) where
  | scalar (v : α)
  | tensor (rows : List α)
deriving DecidableEq

/-- A decoded trajectory: a mapping (association list) from field names to
field values, as produced by `_decode_example`. -/
abbrev Record (α : Type) := List (String × Field α)

/-- Lines 150-151: the leading-dimension length of a field
(`tf.shape(v)[0] if len(v.shape) > 0 else None`). -/
def fieldLen {α : Type} : Field α → Option Nat
  | .scalar _ => none
  | .tensor rows => some rows.length

/-- Line 154: the canonical trajectory length,
`tf.reduce_max([l for l in traj_lens.values() if l is not None])`. -/
def canonicalLen {α : Type} (x : Record α) : Nat :=
  ((x.map (fun p => fieldLen p.2)).filterMap id).foldr max 0

/-- Lines 157-160: broadcast a scalar to the trajectory length by repetition
(`tf.repeat(x[k], traj_len)`). -/
def bcastScalar {α : Type} (n : Nat) : Field α → Field α
  | .scalar v => .tensor (List.replicate n v)
  | f => f

/-- Lines 162-165: broadcast a length-1 field to the trajectory length along
the first axis (`tf.repeat(x[k], traj_len, axis=0)`). -/
def bcastOne {α : Type} (n : Nat) : Field α → Field α
  | .tensor [r] => .tensor (List.replicate n r)
  | f => f

/-- The full per-field body of the loop at lines 156-165: scalars are first
broadcast to length `n`; a field that (then) has length 1 is broadcast along
axis 0.  After `bcastScalar` no scalar remains, so the result is always a
tensor and we return its rows (the `[v]` branch is unreachable). -/
def broadcastField {α : Type} (n : Nat) (f : Field α) : List α :=
  match bcastOne n (bcastScalar n f) with
  | .scalar v => [v]
  | .tensor rows => rows

/-- Line 170: `tf.size(tf.unique(tf.stack(list(traj_lens.values()))).y) == 1`,
i.e. the list of post-broadcast lengths is nonempty and constant. -/
def lensUniform (l : List Nat) : Bool :=
  match l with
  | [] => false
  | a :: rest => rest.all (fun b => b == a)

/-- The error taxonomy of the spec for `_add_traj_metadata` failures. -/
inductive TagError where
  | reservedField
  | lengthMismatch
  | keyOverflow
deriving DecidableEq

/-- The tagged trajectory produced by `_add_traj_metadata`: the broadcast
fields plus the reserved `_i` and `_len` fields (both length-`traj_len`
int tensors). -/
structure Tagged (α : Type) where
  fields : List (String × List α)
  iTag : List Nat
  lenTag : List Nat
deriving DecidableEq

/-- `_add_traj_metadata` (lines 149-182).  Checks are performed in actual
execution order: the eager Python `assert "_i" not in x` / `assert "_len" not
in x` fire at trace time before any graph-level assert; then the graph
asserts in list order (length uniformity, then the two key round-trip
checks, whose failure signals index/length overflow). -/
def addTrajMetadata {α : Type} (i : Nat) (x : Record α) : Except TagError (Tagged α) :=
  if x.any (fun p => p.1 == "_i") || x.any (fun p => p.1 == "_len") then
    .error .reservedField
  else if ¬ lensUniform ((x.map (fun p => (p.1, broadcastField (canonicalLen x) p.2))).map
      (fun p => p.2.length)) then
    .error .lengthMismatch
  else if ¬ (Int.fmod (makeKey (canonicalLen x) i) (2 ^ TRAJ_IDX_ENCODING_BITS) = (i : Int) ∧
             Int.fdiv (makeKey (canonicalLen x) i) (2 ^ TRAJ_IDX_ENCODING_BITS) =
               ((canonicalLen x : Nat) : Int)) then
    .error .keyOverflow
  else
    .ok ⟨x.map (fun p => (p.1, broadcastField (canonicalLen x) p.2)),
         List.replicate (canonicalLen x) i,
         List.replicate (canonicalLen x) (canonicalLen x)⟩

instance {ε α : Type} [DecidableEq ε] [DecidableEq α] : DecidableEq (Except ε α) :=
  fun a b =>
  match a, b with
  | .error e, .error f =>
    if h : e = f then .isTrue (by rw [h]) else .isFalse (fun hc => h (Except.error.inj hc))
  | .ok u, .ok v =>
    if h : u = v then .isTrue (by rw [h]) else .isFalse (fun hc => h (Except.ok.inj hc))
  | .error _, .ok _ => .isFalse (fun hc => Except.noConfusion hc)
  | .ok _, .error _ => .isFalse (fun hc => Except.noConfusion hc)

/-- One flattened per-step record of the stream produced by
`dataset.unbatch()` (line 77): all fields sliced at one position, plus the
scalar `_i` and `_len` tags. -/
structure TaggedStep (α : Type) where
  fields : List (String × α)
  iVal : Nat
  lenVal : Nat
deriving DecidableEq

/-- `dataset.unbatch()` (line 77) on a tagged trajectory: one step per
leading-dimension position, step `j` carrying the `j`-th row of every field
and of the `_i` / `_len` tags.  All components of a `Tagged` built by
`addTrajMetadata` have length `trajLen`, so the leading dimension is read
off `lenTag`. -/
def unbatchTagged {α : Type} [Inhabited α] (t : Tagged α) : List (TaggedStep α) :=
  (List.range t.lenTag.length).map (fun j =>
    ⟨t.fields.map (fun p => (p.1, p.2.getD j default)), t.iTag.getD j 0, t.lenTag.getD j 0⟩)

/-- `key_func` of `group_by_window` (line 85):
`tf.cast(x["_len"], tf.int64) * (2**_TRAJ_IDX_ENCODING_BITS) + x["_i"]`,
in wrapping int64 arithmetic — the same composite key as the tagger. -/
def keyFunc {α : Type} (s : TaggedStep α) : Int := makeKey s.lenVal s.iVal

/-- `window_size_func` of `group_by_window` (line 87):
`k // (2**_TRAJ_IDX_ENCODING_BITS)` (a nonnegative int64 window size). -/
def windowSizeFunc (k : Int) : Nat := (Int.fdiv k (2 ^ TRAJ_IDX_ENCODING_BITS)).toNat

/-- The buffer a grouping key currently holds (empty if the key is not open). -/
def bufGet {β : Type} (k : Int) (bufs : List (Int × β)) (d : β) : β :=
  (bufs.lookup k).getD d

/-- Update (or open) the buffer of key `k`. -/
def bufSet {β : Type} (k : Int) (v : β) : List (Int × β) → List (Int × β)
  | [] => [(k, v)]
  | (k', v') :: rest => if k' == k then (k, v) :: rest else (k', v') :: bufSet k v rest

/-- Close the buffer of key `k`. -/
def bufErase {β : Type} (k : Int) : List (Int × β) → List (Int × β)
  | [] => []
  | (k', v') :: rest => if k' == k then rest else (k', v') :: bufErase k rest

/-- `dataset.group_by_window` (lines 84-88): per distinct key, accumulate
consecutive same-key steps; once a buffer holds exactly
`window_size_func key` steps, emit it as one completed window and close the
key.  Buffers still open when the stream ends are dropped silently. -/
def groupByWindowAux {α : Type} :
    List (TaggedStep α) → List (Int × List (TaggedStep α)) → List (List (TaggedStep α))
  | [], _ => []
  | s :: rest, bufs =>
    if (bufGet (keyFunc s) bufs [] ++ [s]).length = windowSizeFunc (keyFunc s) then
      (bufGet (keyFunc s) bufs [] ++ [s]) ::
        groupByWindowAux rest (bufErase (keyFunc s) bufs)
    else
      groupByWindowAux rest (bufSet (keyFunc s) (bufGet (keyFunc s) bufs [] ++ [s]) bufs)

/-- The windowed regrouper started with no open keys. -/
def groupByWindow {α : Type} (steps : List (TaggedStep α)) : List (List (TaggedStep α)) :=
  groupByWindowAux steps []

/-- `reduce_func` of `group_by_window` (line 86): `d.batch(window_size)`
re-batches the steps of one completed window into a trajectory, stacking
every field (and the `_i` / `_len` tags) along a new leading dimension. -/
def batchWindow {α : Type} [Inhabited α] (w : List (TaggedStep α)) : Tagged α :=
  match w with
  | [] => ⟨[], [], []⟩
  | s :: _ =>
    ⟨s.fields.map (fun p => (p.1, w.map (fun st => (st.fields.lookup p.1).getD default))),
     w.map (fun st => st.iVal), w.map (fun st => st.lenVal)⟩

/-! ### Pipeline structure of `make_dataset` (lines 44-108) -/

/-- The stages `make_dataset` chains, in order. -/
inductive Stage where
  | decodeStage
  | tagStage
  | trajTransformStage
  | unbatchStage
  | frameTransformStage
  | groupStage
  | shuffleStage
  | repeatStage
  | batchStage
  | prefetchStage
deriving DecidableEq

/-- The stage list `make_dataset` builds (lines 62-106): decode, tag, then
either [traj transforms, unbatch, frame transforms] (when
`traj_transforms_first`) or [unbatch, frame transforms, group-by-window,
traj transforms, unbatch], then the optional reservoir shuffle (only when
`shuffle_buffer_size > 1`), repeat, batch, prefetch. -/
def makeDatasetStages (trajTransformsFirst : Bool) (shuffleBufferSize : Int) : List Stage :=
  [.decodeStage, .tagStage]
  ++ (if trajTransformsFirst then [.trajTransformStage] else [])
  ++ [.unbatchStage, .frameTransformStage]
  ++ (if trajTransformsFirst then [] else [.groupStage, .trajTransformStage, .unbatchStage])
  ++ (if shuffleBufferSize > 1 then [.shuffleStage] else [])
  ++ [.repeatStage, .batchStage, .prefetchStage]

/-- Lines 45-48: the globbed shard paths are shuffled with `seed` only when
`shuffle_buffer_size > 1`; `shuffleFn` abstracts `tf.random.shuffle`. -/
def shardPaths (paths : List String) (shuffleBufferSize : Int) (seed : Nat)
    (shuffleFn : Nat → List String → List String) : List String :=
  if shuffleBufferSize > 1 then shuffleFn seed paths else paths

/-- Line 51: the schema is probed from `paths[0]` after the optional shard
shuffle. -/
def typeSpecProbePath (paths : List String) (shuffleBufferSize : Int) (seed : Nat)
    (shuffleFn : Nat → List String → List String) : String :=
  (shardPaths paths shuffleBufferSize seed shuffleFn).headD ""

/-! ### Basic arithmetic lemmas about the key encoding -/

theorem wrap64_eq_self {n : Int} (h1 : -(2 ^ 63) ≤ n) (h2 : n < 2 ^ 63) :
    wrap64 n = n := by
  unfold wrap64
  omega

/-- C1 helper: in the in-range regime the key is exact (no int64 wrap). -/
theorem makeKey_eq_exact {trajLen i : Nat} (hlen : trajLen < 2 ^ 12) (hi : i < 2 ^ 51) :
    makeKey trajLen i = (trajLen : Int) * 2 ^ 51 + (i : Int) := by
  unfold makeKey TRAJ_IDX_ENCODING_BITS wrap64
  omega

/-- Shared round-trip core: in-range keys decode back to `(idx, len)`. -/
theorem key_roundtrip_aux {len idx : Nat} (hlen : len < 2 ^ 12) (hidx : idx < 2 ^ 51) :
    Int.fmod (makeKey len idx) (2 ^ TRAJ_IDX_ENCODING_BITS) = (idx : Int) ∧
    Int.fdiv (makeKey len idx) (2 ^ TRAJ_IDX_ENCODING_BITS) = (len : Int) := by
  rw [makeKey_eq_exact hlen hidx]
  unfold TRAJ_IDX_ENCODING_BITS
  rw [Int.fmod_eq_emod _ (by positivity), Int.fdiv_eq_ediv _ (by positivity)]
  omega

/-- C1: composite-key round trip.  For `len < 2^12` and `idx < 2^51` the key
`len * 2^51 + idx` constructed in int64 arithmetic satisfies
`key % 2^51 = idx` and `key // 2^51 = len`. -/
theorem key_roundtrip (len idx : Nat) (hlen : len < 2 ^ 12) (hidx : idx < 2 ^ 51) :
    Int.fmod (makeKey len idx) (2 ^ TRAJ_IDX_ENCODING_BITS) = (idx : Int) ∧
    Int.fdiv (makeKey len idx) (2 ^ TRAJ_IDX_ENCODING_BITS) = (len : Int) :=
  key_roundtrip_aux hlen hidx

/-- Witness for C1 at `len = 7`, `idx = 5`. -/
theorem key_roundtrip_witness :
    (7 : Nat) < 2 ^ 12 ∧ (5 : Nat) < 2 ^ 51 ∧
    Int.fmod (makeKey 7 5) (2 ^ TRAJ_IDX_ENCODING_BITS) = 5 ∧
    Int.fdiv (makeKey 7 5) (2 ^ TRAJ_IDX_ENCODING_BITS) = 7 := by
  refine ⟨by norm_num, by norm_num, ?_, ?_⟩
  · exact (key_roundtrip 7 5 (by norm_num) (by norm_num)).1
  · exact (key_roundtrip 7 5 (by norm_num) (by norm_num)).2

/-! ### Structural lemmas about the tagger on all-tensor records -/

theorem foldr_max_const {l : List Nat} {L : Nat} (hne : l ≠ [])
    (h : ∀ a ∈ l, a = L) : l.foldr max 0 = L := by
  induction l with
  | nil => exact absurd rfl hne
  | cons a t ih =>
    simp only [List.foldr_cons]
    rcases eq_or_ne t [] with h0 | h0
    · subst h0
      simp [h a (by simp)]
    · rw [ih h0 (fun b hb => h b (List.mem_cons_of_mem _ hb)),
        h a (List.mem_cons_self _ _), Nat.max_self]

/-- On an all-tensor record the length list surviving the `None` filter is
exactly the list of tensor lengths. -/
theorem filterMap_fieldLen_tensors {α : Type} (y : List (String × List α)) :
    (((y.map (fun p => (p.1, Field.tensor p.2))).map (fun p => fieldLen p.2)).filterMap id)
      = y.map (fun p => p.2.length) := by
  induction y with
  | nil => rfl
  | cons a t ih =>
    have hfl : fieldLen (Field.tensor a.2) = some a.2.length := rfl
    simp only [List.map_cons, List.filterMap_cons, id_eq, hfl, ih]

/-- On a record whose fields are all tensors of length `L`, the canonical
length is `L`. -/
theorem canonicalLen_tensors {α : Type} {x : List (String × List α)} {L : Nat}
    (hne : x ≠ []) (hall : ∀ p ∈ x, p.2.length = L) :
    canonicalLen (x.map (fun p => (p.1, Field.tensor p.2))) = L := by
  unfold canonicalLen
  rw [filterMap_fieldLen_tensors]
  refine foldr_max_const ?_ ?_
  · intro hc
    exact hne (List.map_eq_nil_iff.1 hc)
  · intro a ha
    obtain ⟨p, hp, rfl⟩ := List.mem_map.1 ha
    exact hall p hp

/-- Broadcasting a tensor whose length already equals the trajectory length
is the identity. -/
theorem broadcastField_tensor {α : Type} {n : Nat} {rows : List α}
    (h : rows.length = n) : broadcastField n (Field.tensor rows) = rows := by
  cases rows with
  | nil => simp [broadcastField, bcastScalar, bcastOne]
  | cons r t =>
    cases t with
    | nil =>
      simp only [List.length_cons, List.length_nil, Nat.zero_add] at h
      simp [broadcastField, bcastScalar, bcastOne, ← h]
    | cons r2 t2 => simp [broadcastField, bcastScalar, bcastOne]

theorem lensUniform_replicate {n L : Nat} (hn : n ≠ 0) :
    lensUniform (List.replicate n L) = true := by
  cases n with
  | zero => exact absurd rfl hn
  | succ m => simp [lensUniform, List.replicate_succ, List.all_eq_true]

/-- A record none of whose names equals `nm` fails the `nm`-membership probe. -/
theorem any_name_eq_false {α : Type} {x : List (String × List α)} {nm : String}
    (hnm : nm ∉ x.map Prod.fst) :
    (x.map (fun p => (p.1, Field.tensor p.2))).any (fun p => p.1 == nm) = false := by
  revert hnm
  induction x with
  | nil => intro _; rfl
  | cons a t ih =>
    intro hnm
    rw [List.map_cons] at hnm
    simp only [List.map_cons, List.any_cons, Bool.or_eq_false_iff]
    refine ⟨beq_eq_false_iff_ne.2 (fun hc => hnm (List.mem_cons.2 (Or.inl hc.symm))), ?_⟩
    exact ih (fun hm => hnm (List.mem_cons_of_mem _ hm))

/-- Characterization of `_add_traj_metadata` on a nonempty record whose
fields are all tensors of the same length `L` and whose names avoid the
reserved `_i` / `_len`: broadcasting is the identity and the outcome is
decided purely by the key round-trip asserts. -/
theorem addTrajMetadata_tensors {α : Type} (i L : Nat) (x : List (String × List α))
    (hne : x ≠ []) (hall : ∀ p ∈ x, p.2.length = L)
    (hri : "_i" ∉ x.map Prod.fst) (hrl : "_len" ∉ x.map Prod.fst) :
    addTrajMetadata i (x.map (fun p => (p.1, Field.tensor p.2))) =
      if Int.fmod (makeKey L i) (2 ^ TRAJ_IDX_ENCODING_BITS) = (i : Int) ∧
         Int.fdiv (makeKey L i) (2 ^ TRAJ_IDX_ENCODING_BITS) = (L : Int)
      then .ok ⟨x, List.replicate L i, List.replicate L L⟩
      else .error .keyOverflow := by
  have hcan : canonicalLen (x.map (fun p => (p.1, Field.tensor p.2))) = L :=
    canonicalLen_tensors hne hall
  have hbx : (x.map (fun p => (p.1, Field.tensor p.2))).map
      (fun p => (p.1, broadcastField L p.2)) = x := by
    rw [List.map_map]
    have : ∀ p ∈ x, ((fun p => (p.1, broadcastField L p.2)) ∘
        (fun p : String × List α => (p.1, Field.tensor p.2))) p = id p := by
      intro p hp
      simp only [Function.comp_apply, id]
      rw [broadcastField_tensor (hall p hp)]
    rw [List.map_congr_left this, List.map_id]
  have hlens : lensUniform (x.map (fun p => p.2.length)) = true := by
    have hx : x.map (fun p => p.2.length) = List.replicate x.length L := by
      rw [List.eq_replicate_iff]
      refine ⟨by rw [List.length_map], ?_⟩
      intro b hb
      obtain ⟨p, hp, hpb⟩ := List.mem_map.1 hb
      rw [← hpb]
      exact hall p hp
    rw [hx]
    exact lensUniform_replicate (fun hc => hne (List.length_eq_zero.1 hc))
  unfold addTrajMetadata
  rw [hcan, hbx]
  rw [if_neg (by rw [any_name_eq_false hri, any_name_eq_false hrl]; simp)]
  rw [if_neg (by rw [hlens]; simp)]
  by_cases hk : Int.fmod (makeKey L i) (2 ^ TRAJ_IDX_ENCODING_BITS) = (i : Int) ∧
      Int.fdiv (makeKey L i) (2 ^ TRAJ_IDX_ENCODING_BITS) = (L : Int)
  · rw [if_neg (not_not_intro hk), if_pos hk]
  · rw [if_pos hk, if_neg hk]

/-- C4 counterexample: at `idx = 0`, `len = 4096 = 2^12 < 2^(64-51)` the
int64 key wraps to `-2^63`, its floor-division by `2^51` is `-4096 ≠ 4096`,
and the tagger rejects the trajectory with a key-overflow error instead of
accepting it as the claim states. -/
theorem key_budget_counterexample :
    (0 : Nat) < 2 ^ 51 ∧ (4096 : Nat) < 2 ^ (64 - 51) ∧
    Int.fdiv (makeKey 4096 0) (2 ^ TRAJ_IDX_ENCODING_BITS) ≠ (4096 : Int) ∧
    addTrajMetadata 0 [("a", Field.tensor (List.replicate 4096 (0 : Nat)))] =
      .error .keyOverflow := by
  refine ⟨by norm_num, by norm_num, by decide, ?_⟩
  have hx : [("a", Field.tensor (List.replicate 4096 (0 : Nat)))] =
      ([("a", List.replicate 4096 (0 : Nat))].map (fun p => (p.1, Field.tensor p.2))) := rfl
  have hall : ∀ p ∈ [("a", List.replicate 4096 (0 : Nat))], p.2.length = 4096 := by
    intro p hp
    rw [List.mem_singleton.1 hp]
    exact List.length_replicate 4096 0
  rw [hx, addTrajMetadata_tensors 0 4096 _ (List.cons_ne_nil _ _) hall
    (by decide) (by decide)]
  rw [if_neg]
  rintro ⟨-, hdiv⟩
  exact absurd hdiv (by decide)

/-- C4 amended: keys accept exactly `idx < 2^51` and `len < 2^12`; for
`2^12 ≤ len < 2^13` (the range the claim wrongly admits) the key's
floor-division by `2^51` no longer recovers `len`, so the tagger's
round-trip assert rejects the trajectory. -/
theorem key_budget_amended (idx len : Nat) (hidx : idx < 2 ^ 51) :
    (len < 2 ^ 12 →
      Int.fmod (makeKey len idx) (2 ^ TRAJ_IDX_ENCODING_BITS) = (idx : Int) ∧
      Int.fdiv (makeKey len idx) (2 ^ TRAJ_IDX_ENCODING_BITS) = (len : Int)) ∧
    (2 ^ 12 ≤ len → len < 2 ^ 13 →
      Int.fdiv (makeKey len idx) (2 ^ TRAJ_IDX_ENCODING_BITS) ≠ (len : Int)) := by
  constructor
  · intro hlen
    exact key_roundtrip_aux hlen hidx
  · intro h1 h2
    unfold makeKey wrap64 TRAJ_IDX_ENCODING_BITS
    rw [Int.fdiv_eq_ediv _ (by positivity)]
    omega

/-- Witness for C4's amended claim at `idx = 5` with `len = 7` (accepted)
and `len = 4100` (rejected). -/
theorem key_budget_amended_witness :
    Int.fmod (makeKey 7 5) (2 ^ TRAJ_IDX_ENCODING_BITS) = 5 ∧
    Int.fdiv (makeKey 7 5) (2 ^ TRAJ_IDX_ENCODING_BITS) = 7 ∧
    Int.fdiv (makeKey 4100 5) (2 ^ TRAJ_IDX_ENCODING_BITS) ≠ 4100 := by
  refine ⟨((key_budget_amended 5 7 (by norm_num)).1 (by norm_num)).1,
          ((key_budget_amended 5 7 (by norm_num)).1 (by norm_num)).2,
          (key_budget_amended 5 4100 (by norm_num)).2 (by norm_num) (by norm_num)⟩

/-! ### C3: index or length at the budget boundary is rejected -/

/-- C3: on a well-formed trajectory whose enumeration index is `2^51` or
whose canonical length is `2^12`, the tagger's key round-trip assert fails
and the trajectory is rejected with a key-overflow error — no key is
emitted. -/
theorem tag_rejects_overflow {α : Type} (i L : Nat) (x : List (String × List α))
    (hne : x ≠ []) (hall : ∀ p ∈ x, p.2.length = L)
    (hri : "_i" ∉ x.map Prod.fst) (hrl : "_len" ∉ x.map Prod.fst)
    (hov : i = 2 ^ 51 ∨ (i < 2 ^ 51 ∧ L = 2 ^ 12)) :
    addTrajMetadata i (x.map (fun p => (p.1, Field.tensor p.2))) = .error .keyOverflow := by
  rw [addTrajMetadata_tensors i L x hne hall hri hrl, if_neg]
  rcases hov with hov | ⟨hi, hL⟩
  · rintro ⟨hmod, -⟩
    revert hmod
    subst hov
    unfold makeKey wrap64 TRAJ_IDX_ENCODING_BITS
    rw [Int.fmod_eq_emod _ (by positivity)]
    omega
  · rintro ⟨-, hdiv⟩
    revert hdiv
    subst hL
    unfold makeKey wrap64 TRAJ_IDX_ENCODING_BITS
    rw [Int.fdiv_eq_ediv _ (by positivity)]
    omega

/-- Witness for C3 at `i = 2^51` on a length-1 trajectory. -/
theorem tag_rejects_overflow_witness :
    addTrajMetadata (2 ^ 51) [("a", Field.tensor [(0 : Nat)])] = .error .keyOverflow :=
  tag_rejects_overflow (2 ^ 51) 1 [("a", [(0 : Nat)])] (by decide)
    (by decide) (by decide) (by decide) (Or.inl rfl)

/-! ### C8: reserved field names are rejected first -/

/-- C8: a record that already contains a field literally named `_i` or
`_len` is rejected with a reserved-field error (the eager Python asserts at
lines 176-177, which fire before any graph-level computation is run),
whatever the rest of the record looks like. -/
theorem tag_rejects_reserved {α : Type} (i : Nat) (x : Record α)
    (h : "_i" ∈ x.map Prod.fst ∨ "_len" ∈ x.map Prod.fst) :
    addTrajMetadata i x = .error .reservedField := by
  unfold addTrajMetadata
  rw [if_pos]
  rw [Bool.or_eq_true]
  rcases h with h | h
  · obtain ⟨p, hp, hfst⟩ := List.mem_map.1 h
    exact Or.inl (List.any_eq_true.2 ⟨p, hp, beq_iff_eq.2 hfst⟩)
  · obtain ⟨p, hp, hfst⟩ := List.mem_map.1 h
    exact Or.inr (List.any_eq_true.2 ⟨p, hp, beq_iff_eq.2 hfst⟩)

/-- Witness for C8 on a record with a pre-existing `_i` field. -/
theorem tag_rejects_reserved_witness :
    addTrajMetadata 3 [("_i", Field.scalar (0 : Nat))] = .error .reservedField :=
  tag_rejects_reserved 3 [("_i", Field.scalar (0 : Nat))] (Or.inl (by decide))

/-! ### C5: incompatible non-scalar lengths are rejected after broadcasting -/

/-- Broadcasting leaves a tensor field whose length is not 1 unchanged. -/
theorem broadcastField_tensor_ne_one {α : Type} {n : Nat} {rows : List α}
    (h : rows.length ≠ 1) : broadcastField n (Field.tensor rows) = rows := by
  cases rows with
  | nil => rfl
  | cons r t =>
    cases t with
    | nil => exact absurd rfl h
    | cons r2 t2 => rfl

theorem lensUniform_eq_false {l : List Nat} {a b : Nat}
    (ha : a ∈ l) (hb : b ∈ l) (hab : a ≠ b) : lensUniform l = false := by
  cases l with
  | nil => rfl
  | cons c t =>
    unfold lensUniform
    by_contra hcon
    rw [Bool.not_eq_false] at hcon
    have hv : ∀ y ∈ c :: t, y = c := by
      intro y hy
      rcases List.mem_cons.1 hy with rfl | hy
      · rfl
      · exact beq_iff_eq.1 (List.all_eq_true.1 hcon y hy)
    exact hab ((hv a ha).trans (hv b hb).symm)

/-- A record's `nm`-membership probe is false when no name equals `nm`
(general form, over an arbitrary value type). -/
theorem any_fst_eq_false {β : Type} {x : List (String × β)} {nm : String}
    (hnm : nm ∉ x.map Prod.fst) : x.any (fun p => p.1 == nm) = false := by
  revert hnm
  induction x with
  | nil => intro _; rfl
  | cons a t ih =>
    intro hnm
    rw [List.map_cons] at hnm
    simp only [List.any_cons, Bool.or_eq_false_iff]
    refine ⟨beq_eq_false_iff_ne.2 (fun hc => hnm (List.mem_cons.2 (Or.inl hc.symm))), ?_⟩
    exact ih (fun hm => hnm (List.mem_cons_of_mem _ hm))

/-- C5: a record (with no reserved names) containing two non-scalar fields
whose leading dimensions differ and are both different from 1 fails the
post-broadcast length-uniformity assert and is rejected with a
length-mismatch error, emitting no tagged steps. -/
theorem tag_rejects_length_mismatch {α : Type} (i : Nat) (x : Record α)
    (na nb : String) (u v : List α)
    (hri : "_i" ∉ x.map Prod.fst) (hrl : "_len" ∉ x.map Prod.fst)
    (ha : (na, Field.tensor u) ∈ x) (hb : (nb, Field.tensor v) ∈ x)
    (huv : u.length ≠ v.length) (hu1 : u.length ≠ 1) (hv1 : v.length ≠ 1) :
    addTrajMetadata i x = .error .lengthMismatch := by
  unfold addTrajMetadata
  rw [if_neg (by rw [any_fst_eq_false hri, any_fst_eq_false hrl]; simp)]
  rw [if_pos]
  have hmu : u.length ∈ (x.map (fun p => (p.1, broadcastField (canonicalLen x) p.2))).map
      (fun p => p.2.length) := by
    refine List.mem_map.2 ⟨(na, u), List.mem_map.2 ⟨(na, Field.tensor u), ha, ?_⟩, rfl⟩
    rw [broadcastField_tensor_ne_one hu1]
  have hmv : v.length ∈ (x.map (fun p => (p.1, broadcastField (canonicalLen x) p.2))).map
      (fun p => p.2.length) := by
    refine List.mem_map.2 ⟨(nb, v), List.mem_map.2 ⟨(nb, Field.tensor v), hb, ?_⟩, rfl⟩
    rw [broadcastField_tensor_ne_one hv1]
  rw [lensUniform_eq_false hmu hmv huv]
  simp

/-- Witness for C5: fields of lengths 5 and 7. -/
theorem tag_rejects_length_mismatch_witness :
    addTrajMetadata 0 [("a", Field.tensor [0, 1, 2, 3, 4]),
      ("b", Field.tensor [(5 : Nat), 6, 7, 8, 9, 10, 11])] = .error .lengthMismatch :=
  tag_rejects_length_mismatch 0
    [("a", Field.tensor [0, 1, 2, 3, 4]), ("b", Field.tensor [(5 : Nat), 6, 7, 8, 9, 10, 11])]
    "a" "b" [0, 1, 2, 3, 4] [(5 : Nat), 6, 7, 8, 9, 10, 11]
    (by decide) (by decide) (by decide) (by decide) (by decide) (by decide) (by decide)

/-! ### C6: the canonical length is the maximum non-scalar leading dimension -/

theorem le_foldr_max {l : List Nat} {a : Nat} (h : a ∈ l) : a ≤ l.foldr max 0 := by
  induction l with
  | nil => cases h
  | cons c t ih =>
    rw [List.foldr_cons]
    rcases List.mem_cons.1 h with rfl | h
    · exact Nat.le_max_left _ _
    · exact le_trans (ih h) (Nat.le_max_right _ _)

theorem foldr_max_mem {l : List Nat} (h : l ≠ []) : l.foldr max 0 ∈ l := by
  induction l with
  | nil => exact absurd rfl h
  | cons c t ih =>
    rw [List.foldr_cons]
    rcases eq_or_ne t [] with rfl | ht
    · simp
    · rcases Nat.le_total c (t.foldr max 0) with hle | hle
      · rw [Nat.max_eq_right hle]
        exact List.mem_cons_of_mem _ (ih ht)
      · rw [Nat.max_eq_left hle]
        exact List.mem_cons_self _ _

theorem foldr_max_le {l : List Nat} {m : Nat} (h : ∀ n ∈ l, n ≤ m) :
    l.foldr max 0 ≤ m := by
  induction l with
  | nil => exact Nat.zero_le m
  | cons c t ih =>
    rw [List.foldr_cons]
    exact Nat.max_le.2 ⟨h c (List.mem_cons_self _ _),
      ih (fun n hn => h n (List.mem_cons_of_mem _ hn))⟩

/-- The lengths surviving the `None` filter are exactly the lengths of the
tensor fields. -/
theorem mem_len_list {α : Type} {x : Record α} {n : Nat} :
    n ∈ (x.map (fun p => fieldLen p.2)).filterMap id ↔
      ∃ p ∈ x, ∃ rows, p.2 = Field.tensor rows ∧ rows.length = n := by
  rw [List.mem_filterMap]
  constructor
  · rintro ⟨o, ho, hid⟩
    simp only [id_eq] at hid
    subst hid
    obtain ⟨p, hp, hpo⟩ := List.mem_map.1 ho
    cases hf : p.2 with
    | scalar v =>
      rw [hf] at hpo
      cases hpo
    | tensor rows =>
      rw [hf] at hpo
      simp only [fieldLen, Option.some.injEq] at hpo
      exact ⟨p, hp, rows, hf, hpo⟩
  · rintro ⟨p, hp, rows, hf, rfl⟩
    refine ⟨some rows.length, List.mem_map.2 ⟨p, hp, ?_⟩, rfl⟩
    rw [hf]
    rfl

/-- Dropping the lengths that are at most 1 does not change the maximum as
soon as some length exceeds 1. -/
theorem foldr_max_filter_gt_one {l : List Nat} (h : ∃ n ∈ l, 1 < n) :
    l.foldr max 0 = (l.filter (fun n => decide (1 < n))).foldr max 0 := by
  induction l with
  | nil => rfl
  | cons c t ih =>
    rw [List.foldr_cons, List.filter_cons]
    by_cases hc : 1 < c
    · rw [if_pos (by simpa using hc), List.foldr_cons]
      by_cases hex : ∃ n ∈ t, 1 < n
      · rw [ih hex]
      · push_neg at hex
        have h1 : t.foldr max 0 ≤ 1 := foldr_max_le hex
        have h2 : t.filter (fun n => decide (1 < n)) = [] := by
          rw [List.filter_eq_nil_iff]
          intro n hn
          simpa using Nat.not_lt.2 (hex n hn)
        rw [h2]
        simp only [List.foldr_nil]
        rw [Nat.max_eq_left (le_trans h1 (le_of_lt hc)),
          Nat.max_eq_left (Nat.zero_le c)]
    · rw [if_neg (by simpa using hc)]
      have hex : ∃ n ∈ t, 1 < n := by
        obtain ⟨n, hn, h1n⟩ := h
        rcases List.mem_cons.1 hn with rfl | hn
        · exact absurd h1n hc
        · exact ⟨n, hn, h1n⟩
      rw [← ih hex]
      obtain ⟨n, hn, h1n⟩ := hex
      have hcle : c ≤ t.foldr max 0 :=
        calc c ≤ 1 := Nat.not_lt.1 hc
          _ ≤ n := le_of_lt h1n
          _ ≤ t.foldr max 0 := le_foldr_max hn
      rw [Nat.max_eq_right hcle]

/-- C6: for a record with at least one non-scalar field, the canonical
length computed at line 154 is the maximum leading-dimension size among the
non-scalar fields: it bounds every tensor field's length, it is attained by
one of them, and — whenever any field is longer than 1 — the fields of
leading dimension 1 (like the scalars, which are filtered out) do not
determine it. -/
theorem canonical_len_spec {α : Type} (x : Record α)
    (hne : ∃ p ∈ x, ∃ rows, p.2 = Field.tensor rows) :
    (∀ p ∈ x, ∀ rows, p.2 = Field.tensor rows → rows.length ≤ canonicalLen x) ∧
    (∃ p ∈ x, ∃ rows, p.2 = Field.tensor rows ∧ rows.length = canonicalLen x) ∧
    ((∃ p ∈ x, ∃ rows, p.2 = Field.tensor rows ∧ 1 < rows.length) →
      canonicalLen x =
        (((x.map (fun p => fieldLen p.2)).filterMap id).filter
          (fun n => decide (1 < n))).foldr max 0) := by
  refine ⟨?_, ?_, ?_⟩
  · intro p hp rows hrow
    exact le_foldr_max (mem_len_list.2 ⟨p, hp, rows, hrow, rfl⟩)
  · obtain ⟨p, hp, rows, hrow⟩ := hne
    have hmem : rows.length ∈ (x.map (fun p => fieldLen p.2)).filterMap id :=
      mem_len_list.2 ⟨p, hp, rows, hrow, rfl⟩
    have hnil : (x.map (fun p => fieldLen p.2)).filterMap id ≠ [] := by
      intro h0
      rw [h0] at hmem
      cases hmem
    exact mem_len_list.1 (foldr_max_mem hnil)
  · rintro ⟨p, hp, rows, hrow, hgt⟩
    exact foldr_max_filter_gt_one ⟨rows.length, mem_len_list.2 ⟨p, hp, rows, hrow, rfl⟩, hgt⟩

/-- Witness for C6 on a record with tensor fields of lengths 3 and 1 plus a
scalar: the canonical length 3 is attained by a tensor field. -/
theorem canonical_len_spec_witness :
    ∃ p ∈ ([("a", Field.tensor [0, 1, 2]), ("b", Field.tensor [(5 : Nat)]),
        ("c", Field.scalar 9)] : Record Nat),
      ∃ rows, p.2 = Field.tensor rows ∧
        rows.length = canonicalLen [("a", Field.tensor [0, 1, 2]),
          ("b", Field.tensor [(5 : Nat)]), ("c", Field.scalar 9)] :=
  (canonical_len_spec _ ⟨("a", Field.tensor [0, 1, 2]), by decide, [0, 1, 2], rfl⟩).2.1

/-! ### C7: broadcasting and per-step emission -/

/-- Inversion: a successful tag run returns exactly the broadcast record
plus the replicated `_i` / `_len` tags. -/
theorem addTrajMetadata_ok_inv {α : Type} {i : Nat} {x : Record α} {t : Tagged α}
    (h : addTrajMetadata i x = .ok t) :
    t = ⟨x.map (fun p => (p.1, broadcastField (canonicalLen x) p.2)),
         List.replicate (canonicalLen x) i,
         List.replicate (canonicalLen x) (canonicalLen x)⟩ := by
  unfold addTrajMetadata at h
  split at h
  · cases h
  · split at h
    · cases h
    · split at h
      · cases h
      · exact (Except.ok.inj h).symm

/-- Broadcasting a scalar yields the value repeated `n` times. -/
theorem broadcastField_scalar {α : Type} (n : Nat) (v : α) :
    broadcastField n (Field.scalar v) = List.replicate n v := by
  cases n with
  | zero => rfl
  | succ m =>
    cases m with
    | zero => rfl
    | succ k => rfl

/-- Broadcasting a length-1 tensor repeats its row `n` times along axis 0. -/
theorem broadcastField_one {α : Type} (n : Nat) (r : α) :
    broadcastField n (Field.tensor [r]) = List.replicate n r := rfl

theorem getD_replicate {α : Type} {a d : α} (n j : Nat) (h : j < n) :
    (List.replicate n a).getD j d = a := by
  induction n generalizing j with
  | zero => exact absurd h (Nat.not_lt_zero j)
  | succ m ih =>
    cases j with
    | zero => rfl
    | succ k =>
      rw [List.replicate_succ, List.getD_cons_succ]
      exact ih k (Nat.lt_of_succ_lt_succ h)

/-- C7: on a record the tagger accepts, every scalar field is broadcast to
the canonical length by repetition, every length-1 field is broadcast by
repetition along the first axis, exactly `canonicalLen x` tagged steps are
emitted, every step carries `_i = i` and `_len = canonicalLen x`, and a
scalar field's value appears identically in every emitted step. -/
theorem tag_broadcast_emit {α : Type} [Inhabited α] (i : Nat) (x : Record α) (t : Tagged α)
    (hok : addTrajMetadata i x = .ok t) :
    (∀ nm v, (nm, Field.scalar v) ∈ x →
      (nm, List.replicate (canonicalLen x) v) ∈ t.fields) ∧
    (∀ nm r, (nm, Field.tensor [r]) ∈ x →
      (nm, List.replicate (canonicalLen x) r) ∈ t.fields) ∧
    (unbatchTagged t).length = canonicalLen x ∧
    (∀ s ∈ unbatchTagged t, s.iVal = i ∧ s.lenVal = canonicalLen x) ∧
    (∀ nm v, (nm, Field.scalar v) ∈ x → ∀ s ∈ unbatchTagged t, (nm, v) ∈ s.fields) := by
  have ht := addTrajMetadata_ok_inv hok
  subst ht
  refine ⟨?_, ?_, ?_, ?_, ?_⟩
  · intro nm v hm
    exact List.mem_map.2 ⟨(nm, Field.scalar v), hm, by rw [broadcastField_scalar]⟩
  · intro nm r hm
    exact List.mem_map.2 ⟨(nm, Field.tensor [r]), hm, by rw [broadcastField_one]⟩
  · simp [unbatchTagged]
  · intro s hs
    obtain ⟨j, hj, rfl⟩ := List.mem_map.1 hs
    have hjL : j < canonicalLen x := by simpa using List.mem_range.1 hj
    exact ⟨getD_replicate _ j hjL, getD_replicate _ j hjL⟩
  · intro nm v hm s hs
    obtain ⟨j, hj, rfl⟩ := List.mem_map.1 hs
    have hjL : j < canonicalLen x := by simpa using List.mem_range.1 hj
    have hmem : (nm, List.replicate (canonicalLen x) v) ∈
        x.map (fun p => (p.1, broadcastField (canonicalLen x) p.2)) :=
      List.mem_map.2 ⟨(nm, Field.scalar v), hm, by rw [broadcastField_scalar]⟩
    refine List.mem_map.2 ⟨(nm, List.replicate (canonicalLen x) v), hmem, ?_⟩
    rw [getD_replicate _ j hjL]

/-- Witness for C7: a length-5 tensor field plus a scalar field produce 5
steps, the scalar broadcast into the tagged record as 5 repeated values. -/
theorem tag_broadcast_emit_witness :
    ("b", List.replicate (canonicalLen [("a", Field.tensor [10, 11, 12, 13, 14]),
        ("b", Field.scalar (9 : Nat))]) 9) ∈
      (Tagged.mk [("a", [10, 11, 12, 13, 14]), ("b", [9, 9, 9, 9, 9])]
        (List.replicate 5 0) (List.replicate 5 5) : Tagged Nat).fields ∧
    (unbatchTagged (Tagged.mk [("a", [10, 11, 12, 13, 14]), ("b", [9, 9, 9, 9, 9])]
        (List.replicate 5 0) (List.replicate 5 5) : Tagged Nat)).length =
      canonicalLen [("a", Field.tensor [10, 11, 12, 13, 14]),
        ("b", Field.scalar (9 : Nat))] := by
  have h := tag_broadcast_emit 0
    [("a", Field.tensor [10, 11, 12, 13, 14]), ("b", Field.scalar (9 : Nat))]
    (Tagged.mk [("a", [10, 11, 12, 13, 14]), ("b", [9, 9, 9, 9, 9])]
      (List.replicate 5 0) (List.replicate 5 5)) (by decide)
  exact ⟨h.1 "b" 9 (by decide), h.2.2.1⟩

/-! ### C9: `traj_transforms_first` skips the regrouping stage -/

/-- C9: when `traj_transforms_first` is true the pipeline contains no
group-by-window stage, applies the trajectory transforms exactly once and
before the (single) unbatch, and never regroups the flattened stream; the
group-by-window stage and the post-regroup trajectory-transform pass (which
follows the group stage) appear exactly when `traj_transforms_first` is
false. -/
theorem traj_first_skips_regroup (b : Int) :
    Stage.groupStage ∉ makeDatasetStages true b ∧
    Stage.groupStage ∈ makeDatasetStages false b ∧
    (makeDatasetStages true b).count Stage.trajTransformStage = 1 ∧
    (makeDatasetStages true b).indexOf Stage.trajTransformStage <
      (makeDatasetStages true b).indexOf Stage.unbatchStage ∧
    (makeDatasetStages true b).count Stage.unbatchStage = 1 ∧
    (makeDatasetStages false b).count Stage.unbatchStage = 2 ∧
    (makeDatasetStages false b).count Stage.trajTransformStage = 1 ∧
    (makeDatasetStages false b).indexOf Stage.groupStage <
      (makeDatasetStages false b).indexOf Stage.trajTransformStage := by
  rcases lt_or_le 1 b with hb | hb
  · have hb' : b > 1 := hb
    simp only [makeDatasetStages, if_pos hb']
    decide
  · have hb' : ¬ b > 1 := not_lt.2 hb
    simp only [makeDatasetStages, if_neg hb']
    decide

/-! ### C10: `shuffle_buffer_size` gates both shuffles; schema follows it -/

/-- C10: a `shuffle_buffer_size` of 1 or less disables the shard-path
shuffle as well as the reservoir shuffle stage; when it exceeds 1 the shard
list is shuffled with the seed and the schema probe reads the first record
of the shuffled (seed-dependent) list, and the reservoir shuffle stage is
present. -/
theorem shuffle_gates_shard_shuffle (paths : List String) (b : Int) (seed : Nat)
    (shuffleFn : Nat → List String → List String) :
    (b ≤ 1 → shardPaths paths b seed shuffleFn = paths ∧
      (∀ t : Bool, Stage.shuffleStage ∉ makeDatasetStages t b)) ∧
    (1 < b → shardPaths paths b seed shuffleFn = shuffleFn seed paths ∧
      typeSpecProbePath paths b seed shuffleFn = (shuffleFn seed paths).headD "" ∧
      (∀ t : Bool, Stage.shuffleStage ∈ makeDatasetStages t b)) := by
  constructor
  · intro hb
    have hb' : ¬ b > 1 := not_lt.2 hb
    refine ⟨by rw [shardPaths, if_neg hb'], ?_⟩
    intro t
    cases t <;> simp only [makeDatasetStages, if_neg hb'] <;> decide
  · intro hb
    refine ⟨by rw [shardPaths, if_pos hb],
            by rw [typeSpecProbePath, shardPaths, if_pos hb], ?_⟩
    intro t
    cases t <;> simp only [makeDatasetStages, if_pos hb] <;> decide

/-- Witness for C10 with two shards and a reversing shuffle. -/
theorem shuffle_gates_shard_shuffle_witness :
    shardPaths ["a.tfrecord", "b.tfrecord"] 1 7 (fun _ l => l.reverse) =
      ["a.tfrecord", "b.tfrecord"] ∧
    shardPaths ["a.tfrecord", "b.tfrecord"] 2 7 (fun _ l => l.reverse) =
      ["b.tfrecord", "a.tfrecord"] ∧
    typeSpecProbePath ["a.tfrecord", "b.tfrecord"] 2 7 (fun _ l => l.reverse) =
      "b.tfrecord" := by
  have h1 := (shuffle_gates_shard_shuffle ["a.tfrecord", "b.tfrecord"] 1 7
    (fun _ l => l.reverse)).1 (by norm_num)
  have h2 := (shuffle_gates_shard_shuffle ["a.tfrecord", "b.tfrecord"] 2 7
    (fun _ l => l.reverse)).2 (by norm_num)
  exact ⟨h1.1, by rw [h2.1]; rfl, by rw [h2.2.1]; rfl⟩

/-! ### C2: tag → flatten → regroup reconstructs the trajectory -/

theorem bufGet_same {β : Type} (k : Int) (b : β) (rest : List (Int × β)) (d : β) :
    bufGet k ((k, b) :: rest) d = b := by
  simp [bufGet, List.lookup]

theorem bufErase_same {β : Type} (k : Int) (b : β) (rest : List (Int × β)) :
    bufErase k ((k, b) :: rest) = rest := by
  unfold bufErase
  rw [if_pos (beq_self_eq_true k)]

theorem bufSet_same {β : Type} (k : Int) (v b : β) (rest : List (Int × β)) :
    bufSet k v ((k, b) :: rest) = (k, v) :: rest := by
  unfold bufSet
  rw [if_pos (beq_self_eq_true k)]

/-- A single open key whose buffer plus remaining same-key steps exactly fill
its window emits that one window and nothing else. -/
theorem gbw_single_open {α : Type} (k : Int) (n : Nat) :
    ∀ (rest b : List (TaggedStep α)),
      (∀ s ∈ rest, keyFunc s = k) → windowSizeFunc k = n →
      b.length + rest.length = n → rest ≠ [] →
      groupByWindowAux rest [(k, b)] = [b ++ rest] := by
  intro rest
  induction rest with
  | nil => intro b _ _ _ hne; exact absurd rfl hne
  | cons s rest' ih =>
    intro b hk hw hlen _
    have hks : keyFunc s = k := hk s (List.mem_cons_self _ _)
    have hbl : (b ++ [s]).length = b.length + 1 := by
      rw [List.length_append]
      rfl
    simp only [List.length_cons] at hlen
    simp only [groupByWindowAux, hks]
    rw [bufGet_same]
    rcases eq_or_ne rest' [] with rfl | hne'
    · have hcond : (b ++ [s]).length = windowSizeFunc k := by
        rw [hw, hbl]
        simp only [List.length_nil] at hlen
        omega
      rw [if_pos hcond, bufErase_same]
      simp [groupByWindowAux]
    · have h1 : 0 < rest'.length := List.length_pos.2 hne'
      have hcond : ¬ (b ++ [s]).length = windowSizeFunc k := by
        rw [hw, hbl]
        omega
      rw [if_neg hcond, bufSet_same]
      rw [ih (b ++ [s]) (fun t ht => hk t (List.mem_cons_of_mem _ ht)) hw
        (by rw [hbl]; omega) hne']
      rw [List.append_assoc]
      rfl

/-- A stream of `n ≥ 1` steps all sharing one key whose window size is `n`
is regrouped into exactly that one window. -/
theorem gbw_single {α : Type} (steps : List (TaggedStep α)) (k : Int) (n : Nat)
    (hk : ∀ s ∈ steps, keyFunc s = k) (hw : windowSizeFunc k = n)
    (hlen : steps.length = n) (hne : steps ≠ []) :
    groupByWindow steps = [steps] := by
  cases steps with
  | nil => exact absurd rfl hne
  | cons s rest =>
    unfold groupByWindow
    simp only [groupByWindowAux, hk s (List.mem_cons_self _ _)]
    have hbg : bufGet k ([] : List (Int × List (TaggedStep α))) [] = [] := rfl
    rw [hbg]
    have hsl : (([] : List (TaggedStep α)) ++ [s]).length = 1 := rfl
    simp only [List.length_cons] at hlen
    rcases eq_or_ne rest [] with rfl | hner
    · have hcond : (([] : List (TaggedStep α)) ++ [s]).length = windowSizeFunc k := by
        rw [hw, hsl]
        simp only [List.length_nil] at hlen
        omega
      rw [if_pos hcond]
      simp only [groupByWindowAux]
      rfl
    · have h1 : 0 < rest.length := List.length_pos.2 hner
      have hcond : ¬ (([] : List (TaggedStep α)) ++ [s]).length = windowSizeFunc k := by
        rw [hw, hsl]
        omega
      rw [if_neg hcond]
      have hbs : bufSet k (([] : List (TaggedStep α)) ++ [s]) [] = [(k, [] ++ [s])] := rfl
      rw [hbs]
      rw [gbw_single_open k n rest ([] ++ [s]) (fun t ht => hk t (List.mem_cons_of_mem _ ht))
        hw (by rw [hsl]; omega) hner]
      rfl

/-- Unbatching the tagged trajectory yields one step per position `j`,
carrying the `j`-th row of every field and the constant tags. -/
theorem unbatch_tag {α : Type} [Inhabited α] (x : List (String × List α)) (i L : Nat) :
    unbatchTagged ⟨x, List.replicate L i, List.replicate L L⟩ =
      (List.range L).map (fun j =>
        ⟨x.map (fun p => (p.1, p.2.getD j default)), i, L⟩) := by
  unfold unbatchTagged
  rw [List.length_replicate]
  refine List.map_congr_left (fun j hj => ?_)
  have hjL : j < L := List.mem_range.1 hj
  rw [getD_replicate _ j hjL, getD_replicate _ j hjL]

/-- The key-derived window size of an in-range key is the encoded length. -/
theorem windowSize_makeKey {L i : Nat} (hL : L ≤ 4095) (hi : i < 2 ^ 51) :
    windowSizeFunc (makeKey L i) = L := by
  unfold windowSizeFunc
  rw [(key_roundtrip_aux (by omega) hi).2]
  exact Int.toNat_natCast L

/-- Association-list lookup over a key-preserving map finds the image of the
unique entry with that key. -/
theorem lookup_map_pair {β γ : Type} {x : List (String × β)} (g : String × β → γ)
    (hnodup : (x.map Prod.fst).Nodup) {q : String × β} (hq : q ∈ x) :
    (x.map (fun r => (r.1, g r))).lookup q.1 = some (g q) := by
  induction x with
  | nil => cases hq
  | cons r rest ih =>
    rw [List.map_cons] at hnodup ⊢
    have hnd := List.nodup_cons.1 hnodup
    rcases List.mem_cons.1 hq with rfl | hq'
    · simp [List.lookup]
    · have hne : q.1 ≠ r.1 := by
        intro hc
        exact hnd.1 (hc ▸ List.mem_map_of_mem Prod.fst hq')
      have hbeq : (q.1 == r.1) = false := beq_eq_false_iff_ne.2 hne
      simp only [List.lookup, hbeq]
      exact ih hnd.2 hq'

/-- Reading every position of a list with `getD` in order rebuilds it. -/
theorem getD_range_eq {β : Type} (l : List β) (d : β) :
    (List.range l.length).map (fun j => l.getD j d) = l := by
  induction l with
  | nil => rfl
  | cons a t ih =>
    rw [List.length_cons, List.range_succ_eq_map, List.map_cons, List.map_map]
    have h1 : ((fun j => (a :: t).getD j d) ∘ Nat.succ) = (fun j => t.getD j d) :=
      funext (fun j => List.getD_cons_succ)
    rw [h1, ih]
    rfl

theorem map_const_range {β : Type} (n : Nat) (c : β) :
    (List.range n).map (fun _ => c) = List.replicate n c := by
  induction n with
  | zero => rfl
  | succ m ih =>
    rw [List.range_succ, List.map_append, ih, List.replicate_succ']
    rfl

theorem batchWindow_cons {α : Type} [Inhabited α] (s : TaggedStep α)
    (rest : List (TaggedStep α)) :
    batchWindow (s :: rest) =
      ⟨s.fields.map (fun p => (p.1,
          (s :: rest).map (fun st => (st.fields.lookup p.1).getD default))),
       (s :: rest).map (fun st => st.iVal),
       (s :: rest).map (fun st => st.lenVal)⟩ := rfl

/-- `batch(window_size)` applied to the unbatched steps of a tagged
trajectory re-assembles exactly that trajectory. -/
theorem batch_unbatch {α : Type} [Inhabited α] (x : List (String × List α)) (i m : Nat)
    (hnodup : (x.map Prod.fst).Nodup) (hall : ∀ p ∈ x, p.2.length = m + 1) :
    batchWindow (unbatchTagged ⟨x, List.replicate (m + 1) i,
        List.replicate (m + 1) (m + 1)⟩) =
      ⟨x, List.replicate (m + 1) i, List.replicate (m + 1) (m + 1)⟩ := by
  rw [unbatch_tag]
  have hw : (List.range (m + 1)).map (fun j =>
      (⟨x.map (fun p => (p.1, p.2.getD j default)), i, m + 1⟩ : TaggedStep α)) =
      (⟨x.map (fun p => (p.1, p.2.getD 0 default)), i, m + 1⟩ : TaggedStep α) ::
        ((List.range m).map Nat.succ).map (fun j =>
          (⟨x.map (fun p => (p.1, p.2.getD j default)), i, m + 1⟩ : TaggedStep α)) := by
    rw [List.range_succ_eq_map, List.map_cons]
  rw [hw, batchWindow_cons, ← hw]
  dsimp only
  simp only [Tagged.mk.injEq]
  refine ⟨?_, ?_, ?_⟩
  · rw [List.map_map]
    have hcomp : ∀ q ∈ x, ((fun p => (p.1, ((List.range (m + 1)).map (fun j =>
        (⟨x.map (fun p => (p.1, p.2.getD j default)), i, m + 1⟩ : TaggedStep α))).map
          (fun st => (st.fields.lookup p.1).getD default))) ∘
        (fun p : String × List α => (p.1, p.2.getD 0 default))) q = id q := by
      intro q hq
      simp only [Function.comp_apply, id_eq, List.map_map]
      have hcol : ∀ j, ((fun st : TaggedStep α => (st.fields.lookup q.1).getD default) ∘
          (fun j => (⟨x.map (fun p => (p.1, p.2.getD j default)), i, m + 1⟩ :
            TaggedStep α))) j = q.2.getD j default := by
        intro j
        simp only [Function.comp_apply]
        rw [lookup_map_pair (fun r => r.2.getD j default) hnodup hq]
        rfl
      rw [List.map_congr_left (fun j _ => hcol j)]
      have : (List.range (m + 1)).map (fun j => q.2.getD j default) = q.2 := by
        rw [← hall q hq]
        exact getD_range_eq q.2 default
      rw [this]
    rw [List.map_congr_left hcomp, List.map_id]
  · rw [List.map_map]
    exact map_const_range (m + 1) i
  · rw [List.map_map]
    exact map_const_range (m + 1) (m + 1)

/-- C2: tagging a nonempty all-tensor trajectory of length `1 ≤ L ≤ 4095`
(with distinct, non-reserved field names and index `i < 2^51`), flattening
it into per-step records, and regrouping via the windowed key scheme
reconstructs exactly one Trajectory batch with the same field contents and
the same `_len` as the original. -/
theorem tag_flatten_regroup_roundtrip {α : Type} [Inhabited α]
    (x : List (String × List α)) (i L : Nat)
    (hne : x ≠ []) (hall : ∀ p ∈ x, p.2.length = L)
    (hnodup : (x.map Prod.fst).Nodup)
    (hri : "_i" ∉ x.map Prod.fst) (hrl : "_len" ∉ x.map Prod.fst)
    (hL1 : 1 ≤ L) (hL2 : L ≤ 4095) (hi : i < 2 ^ 51) :
    addTrajMetadata i (x.map (fun p => (p.1, Field.tensor p.2))) =
      .ok ⟨x, List.replicate L i, List.replicate L L⟩ ∧
    groupByWindow (unbatchTagged ⟨x, List.replicate L i, List.replicate L L⟩) =
      [unbatchTagged ⟨x, List.replicate L i, List.replicate L L⟩] ∧
    batchWindow (unbatchTagged ⟨x, List.replicate L i, List.replicate L L⟩) =
      ⟨x, List.replicate L i, List.replicate L L⟩ := by
  refine ⟨?_, ?_, ?_⟩
  · rw [addTrajMetadata_tensors i L x hne hall hri hrl,
      if_pos (key_roundtrip_aux (by omega) hi)]
  · refine gbw_single _ (makeKey L i) L ?_ (windowSize_makeKey hL2 hi) ?_ ?_
    · intro s hs
      rw [unbatch_tag] at hs
      obtain ⟨j, hj, rfl⟩ := List.mem_map.1 hs
      rfl
    · rw [unbatch_tag, List.length_map, List.length_range]
    · rw [unbatch_tag]
      intro hc
      rw [List.map_eq_nil_iff, List.range_eq_nil] at hc
      omega
  · obtain ⟨m, rfl⟩ : ∃ m, L = m + 1 := ⟨L - 1, by omega⟩
    exact batch_unbatch x i m hnodup hall

/-- Witness for C2 on a length-2 trajectory with one field. -/
theorem tag_flatten_regroup_roundtrip_witness :
    addTrajMetadata 0 ([("a", [3, 4])].map (fun p => (p.1, Field.tensor p.2))) =
      .ok ⟨[("a", [(3 : Nat), 4])], List.replicate 2 0, List.replicate 2 2⟩ ∧
    groupByWindow (unbatchTagged ⟨[("a", [(3 : Nat), 4])],
        List.replicate 2 0, List.replicate 2 2⟩) =
      [unbatchTagged ⟨[("a", [(3 : Nat), 4])], List.replicate 2 0, List.replicate 2 2⟩] ∧
    batchWindow (unbatchTagged ⟨[("a", [(3 : Nat), 4])],
        List.replicate 2 0, List.replicate 2 2⟩) =
      ⟨[("a", [(3 : Nat), 4])], List.replicate 2 0, List.replicate 2 2⟩ :=
  tag_flatten_regroup_roundtrip [("a", [(3 : Nat), 4])] 0 2 (by decide) (by decide)
    (by decide) (by decide) (by decide) (by decide) (by decide) (by decide)

end Dlimp
